import Mathlib

/-!
# Verification of the libsel4platsupport common code and IRQ-server subsystem

This development embeds, as Lean functions, the code of
`src/libsel4platsupport/src/common.c`: the serial-setup state machine, the
physical-memory region enumeration, and the IRQ server subsystem.  For the
IRQ server only the header (declarations and contract comments) is present
in the sources; the behaviour of its operations is therefore modelled from
the specification, as indicated on each definition.
-/

/-! ## Bit-level machinery

The IRQ server identifies registrations by bits of a badge word.  We work
over `Nat` with explicit bit operations.  `bitsList n` is the ascending list
of set-bit indices of `n`; `popcount` and the lowest set bit derive from it.
-/

/-- Ascending list of the indices of the set bits of `n`.  Every set bit of
`n` has index below `n` itself, so filtering `List.range n` is exhaustive. -/
def bitsList (n : Nat) : List Nat :=
  (List.range n).filter (fun b => n.testBit b)

/-- Number of set bits of `n`. -/
def popcount (n : Nat) : Nat := (bitsList n).length

/-- Index of the lowest set bit of `n`, `none` when `n = 0`. -/
def lowestSetBit (n : Nat) : Option Nat := (bitsList n).head?

theorem bitsList_zero : bitsList 0 = [] := rfl

theorem lt_of_testBit_eq_true {n b : Nat} (h : n.testBit b) : b < n := by
  have h1 : 2 ^ b ≤ n := Nat.testBit_implies_ge h
  have h2 : b < 2 ^ b := Nat.lt_pow_self (by norm_num) b
  omega

theorem mem_bitsList (n : Nat) : ∀ b, b ∈ bitsList n ↔ n.testBit b := by
  intro b
  rw [bitsList, List.mem_filter, List.mem_range]
  constructor
  · exact fun h => by simpa using h.2
  · intro h
    exact ⟨lt_of_testBit_eq_true h, by simpa using h⟩

theorem bitsList_sorted (n : Nat) : (bitsList n).Sorted (· < ·) :=
  List.Pairwise.sublist (List.filter_sublist _) (List.pairwise_lt_range n)

theorem bitsList_nodup (n : Nat) : (bitsList n).Nodup :=
  (bitsList_sorted n).nodup

theorem bitsList_eq_nil_iff (n : Nat) : bitsList n = [] ↔ n = 0 := by
  constructor
  · intro h
    refine Nat.eq_of_testBit_eq fun i => ?_
    rw [Nat.zero_testBit]
    have := (mem_bitsList n i).symm
    rw [h] at this
    simpa using this.symm
  · rintro rfl; exact bitsList_zero

theorem lowestSetBit_eq_none_iff (n : Nat) : lowestSetBit n = none ↔ n = 0 := by
  rw [lowestSetBit, List.head?_eq_none_iff, bitsList_eq_nil_iff]

theorem lowestSetBit_spec (n i : Nat) (h : lowestSetBit n = some i) :
    n.testBit i ∧ ∀ j < i, ¬ n.testBit j := by
  rw [lowestSetBit] at h
  rcases hl : bitsList n with _ | ⟨a, t⟩
  · rw [hl] at h; cases h
  · rw [hl] at h
    simp only [List.head?_cons, Option.some.injEq] at h
    subst h
    have hsort := bitsList_sorted n
    rw [hl] at hsort
    have hlt : ∀ x ∈ t, a < x := (List.sorted_cons.mp hsort).1
    constructor
    · exact (mem_bitsList n a).mp (hl ▸ List.mem_cons_self a t)
    · intro j hj hmem
      have : j ∈ bitsList n := (mem_bitsList n j).mpr hmem
      rw [hl] at this
      rcases List.mem_cons.mp this with rfl | hmt
      · omega
      · exact absurd (hlt j hmt) (by omega)

theorem bitsList_two_pow (b : Nat) : bitsList (2 ^ b) = [b] := by
  have hmem : b ∈ bitsList (2 ^ b) :=
    (mem_bitsList _ b).mpr Nat.testBit_two_pow_self
  have hall : ∀ x ∈ bitsList (2 ^ b), x = b := by
    intro x hx
    have hbit := (mem_bitsList _ x).mp hx
    by_contra hne
    rw [Nat.testBit_two_pow_of_ne (fun hc => hne hc.symm)] at hbit
    cases hbit
  have hnd : (bitsList (2 ^ b)).Nodup := bitsList_nodup _
  rcases hl : bitsList (2 ^ b) with _ | ⟨x, t⟩
  · rw [hl] at hmem; cases hmem
  · rw [hl] at hmem hall hnd
    have hx : x = b := hall x (List.mem_cons_self x t)
    subst hx
    rcases t with _ | ⟨y, u⟩
    · rfl
    · have hy : y = x := hall y (by simp)
      rw [List.nodup_cons] at hnd
      exact absurd (by simp [hy]) hnd.1

theorem length_le_popcount {l : List Nat} {m : Nat}
    (hnd : l.Nodup) (hsub : ∀ b ∈ l, m.testBit b) : l.length ≤ popcount m :=
  List.Subperm.length_le
    (List.subperm_of_subset hnd fun b hb => (mem_bitsList m b).mpr (hsub b hb))

/-! ## IRQ server node model

`src/libsel4platsupport/src/common.c` contains only the header of the IRQ
server subsystem (declarations and contract comments of
`irq_server_node_new`, `irq_server_node_register_irq`,
`irq_server_register_irq`, `irq_server_handle_irq_ipc`,
`irq_server_wait_for_irq`); their bodies are not part of the sources.  The
operations below are therefore modelled from the specification, following
its words for each contract.  Capabilities (notification objects) are
modelled as `Nat` with `0` the null/invalid capability, badges and masks as
`Nat` bit vectors, and callbacks and tokens as opaque `Nat` identifiers.
-/

/-- A registration entry: one interrupt's identity, callback and token
(`struct irq_data` of the header; callback and token are opaque). -/
structure irq_data where
  irq : Nat
  cb : Nat
  token : Nat
deriving DecidableEq, Repr

/-- A dispatch node: one notification channel, a badge mask declaring the
usable bits, and the table mapping each allocated badge bit to its live
registration entry. -/
structure irq_server_node where
  notification : Nat
  badge_mask : Nat
  entries : List (Nat × irq_data)
deriving DecidableEq, Repr

/-- Badge word with exactly the bits currently allocated to entries set. -/
def allocatedBits (entries : List (Nat × irq_data)) : Nat :=
  entries.foldr (fun p acc => acc ||| (1 <<< p.1)) 0

/-- Badge word of the bits of the mask still free for registration: bits of
the mask not currently allocated to an entry. -/
def freeBits (n : irq_server_node) : Nat :=
  n.badge_mask &&& (n.badge_mask ^^^ allocatedBits n.entries)

theorem testBit_allocatedBits (entries : List (Nat × irq_data)) (b : Nat) :
    (allocatedBits entries).testBit b ↔ ∃ e, (b, e) ∈ entries := by
  induction entries with
  | nil => simp [allocatedBits]
  | cons p t ih =>
    simp only [allocatedBits, List.foldr_cons] at *
    rw [Nat.testBit_lor, Nat.one_shiftLeft]
    rcases Nat.decEq p.1 b with h | h
    · simp [Nat.testBit_two_pow_of_ne h, ih]
      constructor
      · rintro ⟨e, he⟩; exact ⟨e, Or.inr he⟩
      · rintro ⟨e, he | he⟩
        · exact absurd (congrArg Prod.fst he).symm h
        · exact ⟨e, he⟩
    · subst h
      simp [Nat.testBit_two_pow_self]
      exact ⟨p.2, Or.inl rfl⟩

/-- Modelled from the spec: the body of `irq_server_node_new` is not in the
sources.  "create(channel, badge_mask) → Node | fails(AllocationError):
fails if channel is invalid or badge_mask is zero (no usable bits)."  The
invalid channel is the null capability `0`. -/
def irq_server_node_new (notification : Nat) (badge_mask : Nat) :
    Option irq_server_node :=
  if notification = 0 ∨ badge_mask = 0 then none
  else some { notification := notification, badge_mask := badge_mask, entries := [] }

/-- Modelled from the spec: the body of `irq_server_node_register_irq` is
not in the sources.  "register(node, irq, callback, token) →
RegistrationHandle | fails(CapacityExceeded): allocates the lowest free bit
in badge_mask (deterministic tie-break: lowest bit index first); fails if
no free bit remains."  The returned handle is the allocated bit. -/
def irq_server_node_register_irq (n : irq_server_node) (irq cb token : Nat) :
    Option (Nat × irq_server_node) :=
  match lowestSetBit (freeBits n) with
  | none => none
  | some b =>
      some (b, { n with entries := n.entries ++ [(b, ⟨irq, cb, token⟩)] })

/-- Modelled from the spec: "deregister(node, handle): releases the bit back
to the free pool". -/
def irq_server_node_deregister_irq (n : irq_server_node) (b : Nat) :
    irq_server_node :=
  { n with entries := n.entries.filter (fun p => p.1 != b) }

/-- Modelled from the spec: the badge-to-entries resolution performed by
`irq_server_handle_irq_ipc`.  "decode(badge) → set of Registration Entries:
pure function; returns every live entry whose bit is set in badge", in
ascending bit order; bits with no live entry are skipped. -/
def decode (n : irq_server_node) (badge : Nat) : List irq_data :=
  (bitsList badge).filterMap
    (fun b => (n.entries.find? (fun p => p.1 == b)).map Prod.snd)

theorem eq_zero_iff_no_testBit (n : Nat) : n = 0 ↔ ∀ j, ¬ n.testBit j := by
  constructor
  · rintro rfl j; simp
  · intro h
    refine Nat.eq_of_testBit_eq fun i => ?_
    rw [Nat.zero_testBit]
    exact Bool.eq_false_iff.mpr fun hc => h i hc

theorem testBit_freeBits (n : irq_server_node) (j : Nat) :
    (freeBits n).testBit j ↔
      n.badge_mask.testBit j ∧ ¬ (allocatedBits n.entries).testBit j := by
  rw [freeBits, Nat.testBit_land, Nat.testBit_xor]
  cases n.badge_mask.testBit j <;> cases (allocatedBits n.entries).testBit j <;> simp

/-- C7: Node creation (`irq_server_node_new`) fails — returning `none`
(NULL) rather than a node — exactly when the supplied channel is the
invalid (null) capability or the supplied `badge_mask` is zero; on success
the node carries the given channel and mask and no entries. -/
theorem irq_server_node_new_fail_iff (notification badge_mask : Nat) :
    (irq_server_node_new notification badge_mask = none ↔
      notification = 0 ∨ badge_mask = 0) ∧
    (∀ n, irq_server_node_new notification badge_mask = some n →
      n.notification = notification ∧ n.badge_mask = badge_mask ∧
      n.entries = []) := by
  constructor
  · rw [irq_server_node_new]
    split <;> simp_all
  · intro n h
    rw [irq_server_node_new] at h
    split at h
    · cases h
    · cases h; exact ⟨rfl, rfl, rfl⟩

theorem irq_server_node_new_fail_iff_witness :
    irq_server_node_new 0 15 = none ∧
    ∃ n, irq_server_node_new 7 15 = some n ∧
      n.notification = 7 ∧ n.badge_mask = 15 ∧ n.entries = [] := by
  refine ⟨(irq_server_node_new_fail_iff 0 15).1.mpr (Or.inl rfl), ?_⟩
  refine ⟨⟨7, 15, []⟩, rfl, ?_⟩
  exact (irq_server_node_new_fail_iff 7 15).2 ⟨7, 15, []⟩ rfl

/-- Soundness of node registration: the allocated bit is the lowest free
bit of the mask, the entry is appended under it, and failure happens
exactly when no free bit remains. -/
theorem register_irq_spec
    (n : irq_server_node) (irq cb token : Nat) :
    (irq_server_node_register_irq n irq cb token = none ↔
      ∀ j, ¬ (n.badge_mask.testBit j ∧ ¬ (allocatedBits n.entries).testBit j)) ∧
    (∀ b n', irq_server_node_register_irq n irq cb token = some (b, n') →
      (n.badge_mask.testBit b ∧ ¬ (allocatedBits n.entries).testBit b) ∧
      (∀ j < b, ¬ (n.badge_mask.testBit j ∧ ¬ (allocatedBits n.entries).testBit j)) ∧
      n'.entries = n.entries ++ [(b, ⟨irq, cb, token⟩)] ∧
      n'.badge_mask = n.badge_mask ∧ n'.notification = n.notification) := by
  constructor
  · constructor
    · intro hnone j hj
      rw [irq_server_node_register_irq] at hnone
      rcases heq : lowestSetBit (freeBits n) with _ | b
      · rw [lowestSetBit_eq_none_iff, eq_zero_iff_no_testBit] at heq
        exact heq j ((testBit_freeBits n j).mpr hj)
      · rw [heq] at hnone; cases hnone
    · intro hall
      rw [irq_server_node_register_irq]
      rcases heq : lowestSetBit (freeBits n) with _ | b
      · rfl
      · have hspec := lowestSetBit_spec _ _ heq
        rw [testBit_freeBits] at hspec
        exact absurd hspec.1 (hall b)
  · intro b n' h
    rw [irq_server_node_register_irq] at h
    rcases heq : lowestSetBit (freeBits n) with _ | b0
    · rw [heq] at h; cases h
    · rw [heq] at h
      simp only [Option.some.injEq, Prod.mk.injEq] at h
      obtain ⟨rfl, rfl⟩ := h
      have hspec := lowestSetBit_spec _ _ heq
      rw [testBit_freeBits] at hspec
      refine ⟨hspec.1, ?_, rfl, rfl, rfl⟩
      intro j hj hcontra
      exact hspec.2 j hj ((testBit_freeBits n j).mpr hcontra)

/-- C1: `irq_server_node_register_irq` allocates the lowest-index free bit
of the node's badge mask (lowest bit index first), recording the new entry
under that bit, and fails exactly when no free bit of the mask remains. -/
theorem irq_server_node_register_irq_lowest_free
    (n : irq_server_node) (irq cb token : Nat) :
    (irq_server_node_register_irq n irq cb token = none ↔
      ∀ j, ¬ (n.badge_mask.testBit j ∧ ¬ (allocatedBits n.entries).testBit j)) ∧
    (∀ b n', irq_server_node_register_irq n irq cb token = some (b, n') →
      (n.badge_mask.testBit b ∧ ¬ (allocatedBits n.entries).testBit b) ∧
      (∀ j < b, ¬ (n.badge_mask.testBit j ∧ ¬ (allocatedBits n.entries).testBit j)) ∧
      n'.entries = n.entries ++ [(b, ⟨irq, cb, token⟩)] ∧
      n'.badge_mask = n.badge_mask ∧ n'.notification = n.notification) :=
  register_irq_spec n irq cb token

theorem irq_server_node_register_irq_lowest_free_witness :
    (irq_server_node_register_irq ⟨7, 15, []⟩ 42 1 2 =
      some (0, ⟨7, 15, [(0, ⟨42, 1, 2⟩)]⟩)) ∧
    Nat.testBit 15 0 = true ∧ (allocatedBits []).testBit 0 = false ∧
    (irq_server_node_register_irq ⟨7, 15, []⟩ 42 1 2 = some (0, ⟨7, 15, [(0, ⟨42, 1, 2⟩)]⟩) →
      (Nat.testBit 15 0 ∧ ¬ (allocatedBits (irq_server_node.mk 7 15 []).entries).testBit 0)) := by
  refine ⟨by decide, by decide, by decide, ?_⟩
  intro h
  exact ((irq_server_node_register_irq_lowest_free ⟨7, 15, []⟩ 42 1 2).2 0 _ h).1

/-! ## Node invariant and the register/deregister state machine -/

/-- Invariant of a dispatch node: live entries hold pairwise-distinct bits,
each drawn from the badge mask. -/
def NodeInv (n : irq_server_node) : Prop :=
  (n.entries.map Prod.fst).Nodup ∧ ∀ p ∈ n.entries, n.badge_mask.testBit p.1

instance (n : irq_server_node) : Decidable (NodeInv n) := by
  unfold NodeInv; infer_instance

theorem mem_keys_iff_allocated (entries : List (Nat × irq_data)) (b : Nat) :
    b ∈ entries.map Prod.fst ↔ (allocatedBits entries).testBit b := by
  rw [testBit_allocatedBits, List.mem_map]
  constructor
  · rintro ⟨p, hp, rfl⟩
    exact ⟨p.2, hp⟩
  · rintro ⟨e, he⟩
    exact ⟨(b, e), he, rfl⟩

theorem NodeInv.register {n : irq_server_node} (h : NodeInv n)
    (irq cb token b : Nat) {n' : irq_server_node}
    (hr : irq_server_node_register_irq n irq cb token = some (b, n')) :
    NodeInv n' := by
  obtain ⟨⟨hmask, hfree⟩, _, hent, hbm, _⟩ :=
    (register_irq_spec n irq cb token).2 b n' hr
  constructor
  · rw [hent, List.map_append]
    rw [List.nodup_append]
    refine ⟨h.1, by simp, ?_⟩
    intro x hx hx'
    simp only [List.map_cons, List.map_nil, List.mem_cons, List.not_mem_nil,
      or_false] at hx'
    subst hx'
    exact hfree ((mem_keys_iff_allocated n.entries x).mp hx)
  · intro p hp
    rw [hent] at hp
    rw [hbm]
    rcases List.mem_append.mp hp with hp | hp
    · exact h.2 p hp
    · simp only [List.mem_cons, List.not_mem_nil, or_false] at hp
      subst hp
      exact hmask

theorem NodeInv.deregister {n : irq_server_node} (h : NodeInv n) (b : Nat) :
    NodeInv (irq_server_node_deregister_irq n b) := by
  constructor
  · exact h.1.sublist ((List.filter_sublist _).map _)
  · intro p hp
    exact h.2 p (List.mem_of_mem_filter hp)

theorem find?_entries_eq {entries : List (Nat × irq_data)}
    (hnd : (entries.map Prod.fst).Nodup) {b : Nat} {e : irq_data}
    (he : (b, e) ∈ entries) :
    entries.find? (fun p => p.1 == b) = some (b, e) := by
  induction entries with
  | nil => cases he
  | cons p t ih =>
    rcases List.mem_cons.mp he with rfl | hmt
    · exact List.find?_cons_of_pos _ (by simp)
    · have hb : b ∈ t.map Prod.fst := List.mem_map.mpr ⟨(b, e), hmt, rfl⟩
      rw [List.map_cons, List.nodup_cons] at hnd
      have hne : p.1 ≠ b := fun hc => hnd.1 (hc ▸ hb)
      rw [List.find?_cons_of_neg _ (by simpa using hne)]
      exact ih hnd.2 hmt

theorem decode_singleton {n : irq_server_node} (h : NodeInv n) {b : Nat}
    {e : irq_data} (he : (b, e) ∈ n.entries) :
    decode n (1 <<< b) = [e] := by
  rw [decode, Nat.one_shiftLeft, bitsList_two_pow]
  rw [List.filterMap_cons, find?_entries_eq h.1 he]
  rfl

/-- One step of the node-local interface: a registration attempt (a failed
attempt leaves the node unchanged) or a deregistration. -/
inductive node_op where
  | reg (irq cb token : Nat)
  | dereg (b : Nat)
deriving DecidableEq, Repr

def node_step (n : irq_server_node) : node_op → irq_server_node
  | .reg irq cb token =>
    match irq_server_node_register_irq n irq cb token with
    | none => n
    | some (_, n') => n'
  | .dereg b => irq_server_node_deregister_irq n b

def node_run (n : irq_server_node) (ops : List node_op) : irq_server_node :=
  ops.foldl node_step n

theorem NodeInv.step_preserved {n : irq_server_node} (h : NodeInv n) (op : node_op) :
    NodeInv (node_step n op) := by
  cases op with
  | reg irq cb token =>
    rcases hr : irq_server_node_register_irq n irq cb token with _ | ⟨b, n'⟩
    · simpa only [node_step, hr] using h
    · simpa only [node_step, hr] using h.register irq cb token b hr
  | dereg b => exact h.deregister b

theorem NodeInv.run_preserved {n : irq_server_node} (h : NodeInv n)
    (ops : List node_op) : NodeInv (node_run n ops) := by
  induction ops generalizing n with
  | nil => exact h
  | cons op t ih =>
    simp only [node_run, List.foldl_cons]
    exact ih (h.step_preserved op)

theorem NodeInv.length_le {n : irq_server_node} (h : NodeInv n) :
    n.entries.length ≤ popcount n.badge_mask := by
  have hlen := length_le_popcount h.1 (fun b hb => by
    rcases List.mem_map.mp hb with ⟨p, hp, rfl⟩
    exact h.2 p hp)
  simpa using hlen

/-- C3: along every sequence of register/deregister calls on a single
dispatch node, the invariant holds: the number of live registration entries
is at most `popcount badge_mask`, every live entry owns exactly one
distinct bit of the mask, and decoding a badge with exactly one live
entry's bit set returns exactly that entry. -/
theorem node_register_deregister_invariant (n : irq_server_node)
    (ops : List node_op) (h : NodeInv n) :
    NodeInv (node_run n ops) ∧
    (node_run n ops).entries.length ≤ popcount (node_run n ops).badge_mask ∧
    (∀ p ∈ (node_run n ops).entries, ∀ q ∈ (node_run n ops).entries,
      p ≠ q → p.1 ≠ q.1) ∧
    (∀ p ∈ (node_run n ops).entries,
      (node_run n ops).badge_mask.testBit p.1) ∧
    (∀ b e, (b, e) ∈ (node_run n ops).entries →
      decode (node_run n ops) (1 <<< b) = [e]) := by
  have hinv : NodeInv (node_run n ops) := h.run_preserved ops
  refine ⟨hinv, hinv.length_le, ?_, hinv.2, ?_⟩
  · intro p hp q hq hpq hc
    exact hpq (List.inj_on_of_nodup_map hinv.1 hp hq hc)
  · intro b e he
    exact decode_singleton hinv he

theorem node_register_deregister_invariant_witness :
    NodeInv (node_run ⟨7, 15, []⟩
      [node_op.reg 1 1 1, node_op.reg 2 2 2, node_op.dereg 0,
       node_op.reg 3 3 3]) ∧
    (node_run ⟨7, 15, []⟩
      [node_op.reg 1 1 1, node_op.reg 2 2 2, node_op.dereg 0,
       node_op.reg 3 3 3]).entries.length ≤
      popcount (node_run ⟨7, 15, []⟩
        [node_op.reg 1 1 1, node_op.reg 2 2 2, node_op.dereg 0,
         node_op.reg 3 3 3]).badge_mask :=
  ⟨(node_register_deregister_invariant ⟨7, 15, []⟩
      [node_op.reg 1 1 1, node_op.reg 2 2 2, node_op.dereg 0,
       node_op.reg 3 3 3] (by decide)).1,
   (node_register_deregister_invariant ⟨7, 15, []⟩
      [node_op.reg 1 1 1, node_op.reg 2 2 2, node_op.dereg 0,
       node_op.reg 3 3 3] (by decide)).2.1⟩

/-- C4: `decode` is a pure total function returning exactly the live
entries whose bits are set in the badge; set bits outside the mask or with
no live entry contribute nothing, and a badge matching no live entry
decodes to the empty dispatch (a no-op). -/
theorem decode_exact_live_entries (n : irq_server_node) (badge : Nat)
    (h : NodeInv n) :
    (∀ e, e ∈ decode n badge ↔ ∃ b, (b, e) ∈ n.entries ∧ badge.testBit b) ∧
    ((∀ b e, (b, e) ∈ n.entries → ¬ badge.testBit b) →
      decode n badge = []) := by
  constructor
  · intro e
    rw [decode]
    constructor
    · intro hmem
      rcases List.mem_filterMap.mp hmem with ⟨b, hb, hf⟩
      rcases Option.map_eq_some'.mp hf with ⟨p, hfind, rfl⟩
      have hp : p ∈ n.entries := List.mem_of_find?_eq_some hfind
      have hpb : p.1 = b := by simpa using List.find?_some hfind
      refine ⟨b, ?_, (mem_bitsList badge b).mp hb⟩
      have : p = (b, p.2) := Prod.ext hpb rfl
      exact this ▸ hp
    · rintro ⟨b, hbe, hbit⟩
      refine List.mem_filterMap.mpr ⟨b, (mem_bitsList badge b).mpr hbit, ?_⟩
      rw [find?_entries_eq h.1 hbe]
      rfl
  · intro hnone
    rw [decode]
    rw [List.filterMap_eq_nil_iff]
    intro b hb
    rcases hfind : n.entries.find? (fun p => p.1 == b) with _ | p
    · rw [hfind]; rfl
    · have hp : p ∈ n.entries := List.mem_of_find?_eq_some hfind
      have hpb : p.1 = b := by simpa using List.find?_some hfind
      have : ¬ badge.testBit b := by
        have := hnone p.1 p.2 (by simpa using hp)
        rwa [hpb] at this
      exact absurd ((mem_bitsList badge b).mp hb) this

theorem decode_exact_live_entries_witness :
    decode ⟨7, 3, [(0, ⟨9, 1, 2⟩)]⟩ 8 = [] :=
  (decode_exact_live_entries ⟨7, 3, [(0, ⟨9, 1, 2⟩)]⟩ 8 (by decide)).2
    (by
      intro b e he hbit
      simp only [List.mem_cons, List.not_mem_nil, or_false,
        Prod.mk.injEq] at he
      obtain ⟨rfl, -⟩ := he
      exact absurd hbit (by decide))

/-! ## IRQ server model (collection of (node, worker) pairs) -/

/-- The server: designated IPC label, dynamic-versus-fixed admission mode,
the badge mask handed to newly created nodes, the notification capability
obtained from the resource provider for new nodes, the nodes in creation
order keyed by identity, the worker threads (one identity per node), and
the next fresh identity.  Modelled from the spec: the body of
`irq_server_new` and the `irq_server` structure are not in the sources. -/
structure irq_server where
  label : Nat
  dynamic : Bool
  node_badge_mask : Nat
  provider_ntfn : Nat
  nodes : List (Nat × irq_server_node)
  workers : List Nat
  next_id : Nat
deriving DecidableEq, Repr

theorem register_irq_eq_none_iff (n : irq_server_node) (irq cb token : Nat) :
    irq_server_node_register_irq n irq cb token = none ↔ freeBits n = 0 := by
  rw [irq_server_node_register_irq]
  rcases heq : lowestSetBit (freeBits n) with _ | b
  · simp [(lowestSetBit_eq_none_iff _).mp heq]
  · simp only [reduceCtorEq, false_iff]
    intro hc
    rw [hc, (lowestSetBit_eq_none_iff 0).mpr rfl] at heq
    cases heq

/-- First-fit scan over the nodes in creation order: the first node that
accepts the registration is updated, all others are untouched. -/
def registerScan (irq cb token : Nat) :
    List (Nat × irq_server_node) →
    Option ((Nat × Nat) × List (Nat × irq_server_node))
  | [] => none
  | (id, n) :: rest =>
    match irq_server_node_register_irq n irq cb token with
    | some (b, n') => some ((id, b), (id, n') :: rest)
    | none =>
      (registerScan irq cb token rest).map (fun r => (r.1, (id, n) :: r.2))

/-- Modelled from the spec: the body of `irq_server_register_irq` is not in
the sources.  "register(irq, callback, token) → RegistrationHandle |
fails(OutOfResources): scans existing Nodes for free capacity (first-fit by
creation order); if none found and the Server is in dynamic mode, allocates
a new (Node, Worker) pair via the resource provider and registers there; if
in fixed mode and the bound is reached, fails with OutOfResources."  The
handle is the pair (node identity, badge bit). -/
def irq_server_register_irq (s : irq_server) (irq cb token : Nat) :
    Option ((Nat × Nat) × irq_server) :=
  match registerScan irq cb token s.nodes with
  | some (handle, nodes') => some (handle, { s with nodes := nodes' })
  | none =>
    if s.dynamic then
      match irq_server_node_new s.provider_ntfn s.node_badge_mask with
      | none => none
      | some node =>
        match irq_server_node_register_irq node irq cb token with
        | none => none
        | some (b, node') =>
          some ((s.next_id, b),
            { s with
              nodes := s.nodes ++ [(s.next_id, node')],
              workers := s.workers ++ [s.next_id],
              next_id := s.next_id + 1 })
    else none

theorem registerScan_eq_none (irq cb token : Nat)
    (nodes : List (Nat × irq_server_node))
    (hfull : ∀ p ∈ nodes, freeBits p.2 = 0) :
    registerScan irq cb token nodes = none := by
  induction nodes with
  | nil => rfl
  | cons p t ih =>
    obtain ⟨id, n⟩ := p
    rw [registerScan]
    have hn : irq_server_node_register_irq n irq cb token = none :=
      (register_irq_eq_none_iff n irq cb token).mpr
        (hfull (id, n) (List.mem_cons_self _ _))
    rw [hn, ih (fun q hq => hfull q (List.mem_cons_of_mem _ hq))]
    rfl

theorem registerScan_first_fit (irq cb token : Nat)
    (pre : List (Nat × irq_server_node)) (id : Nat) (n : irq_server_node)
    (suf : List (Nat × irq_server_node))
    (hpre : ∀ p ∈ pre, freeBits p.2 = 0) (hn : freeBits n ≠ 0) :
    ∃ b n', irq_server_node_register_irq n irq cb token = some (b, n') ∧
      registerScan irq cb token (pre ++ (id, n) :: suf) =
        some ((id, b), pre ++ (id, n') :: suf) := by
  induction pre with
  | nil =>
    rcases hr : irq_server_node_register_irq n irq cb token with _ | ⟨b, n'⟩
    · exact absurd ((register_irq_eq_none_iff n irq cb token).mp hr) hn
    · refine ⟨b, n', rfl, ?_⟩
      rw [List.nil_append, registerScan, hr]
      rfl
  | cons p t ih =>
    obtain ⟨pid, pn⟩ := p
    have hp : irq_server_node_register_irq pn irq cb token = none :=
      (register_irq_eq_none_iff pn irq cb token).mpr
        (hpre (pid, pn) (List.mem_cons_self _ _))
    obtain ⟨b, n', hr, hscan⟩ := ih (fun q hq => hpre q (List.mem_cons_of_mem _ hq))
    refine ⟨b, n', hr, ?_⟩
    rw [List.cons_append, registerScan, hp, hscan]
    rfl

theorem registerScan_ids (irq cb token : Nat) :
    ∀ (nodes : List (Nat × irq_server_node)) h nodes',
      registerScan irq cb token nodes = some (h, nodes') →
      nodes'.map Prod.fst = nodes.map Prod.fst := by
  intro nodes
  induction nodes with
  | nil => intro h nodes' hc; cases hc
  | cons p t ih =>
    intro h nodes' hs
    obtain ⟨id, n⟩ := p
    rw [registerScan] at hs
    rcases hr : irq_server_node_register_irq n irq cb token with _ | ⟨b, n'⟩
    · rw [hr] at hs
      rcases ht : registerScan irq cb token t with _ | ⟨h0, t'⟩
      · rw [ht] at hs; cases hs
      · rw [ht] at hs
        simp only [Option.map_some', Option.some.injEq] at hs
        injection hs with h1 h2
        subst h1; subst h2
        simp [ih h0 t' ht]
    · rw [hr] at hs
      simp only [Option.some.injEq] at hs
      injection hs with h1 h2
      subst h2
      simp

/-- C2: the server scans its nodes in creation order and registers on the
first node with a free bit; when no node has a free bit, in dynamic mode
exactly one new (node, worker) pair is created and the registration
succeeds on it, while in fixed-capacity mode the call fails (returning
`none`, i.e. OutOfResources) and no new node is created. -/
theorem irq_server_register_irq_policy (s : irq_server) (irq cb token : Nat) :
    (∀ pre id n suf,
      s.nodes = pre ++ (id, n) :: suf →
      (∀ p ∈ pre, freeBits p.2 = 0) → freeBits n ≠ 0 →
      ∃ b n', irq_server_node_register_irq n irq cb token = some (b, n') ∧
        irq_server_register_irq s irq cb token =
          some ((id, b), { s with nodes := pre ++ (id, n') :: suf })) ∧
    ((∀ p ∈ s.nodes, freeBits p.2 = 0) → s.dynamic = true →
      s.provider_ntfn ≠ 0 → s.node_badge_mask ≠ 0 →
      ∃ b node',
        irq_server_register_irq s irq cb token =
          some ((s.next_id, b),
            { s with
              nodes := s.nodes ++ [(s.next_id, node')],
              workers := s.workers ++ [s.next_id],
              next_id := s.next_id + 1 }) ∧
        node'.entries = [(b, ⟨irq, cb, token⟩)] ∧
        node'.badge_mask = s.node_badge_mask ∧
        node'.notification = s.provider_ntfn) ∧
    ((∀ p ∈ s.nodes, freeBits p.2 = 0) → s.dynamic = false →
      irq_server_register_irq s irq cb token = none) := by
  refine ⟨?_, ?_, ?_⟩
  · intro pre id n suf hdec hpre hn
    obtain ⟨b, n', hr, hscan⟩ :=
      registerScan_first_fit irq cb token pre id n suf hpre hn
    refine ⟨b, n', hr, ?_⟩
    rw [irq_server_register_irq, hdec, hscan]
  · intro hfull hdyn hntfn hmask
    have hscan : registerScan irq cb token s.nodes = none :=
      registerScan_eq_none irq cb token s.nodes hfull
    have hnew : irq_server_node_new s.provider_ntfn s.node_badge_mask =
        some ⟨s.provider_ntfn, s.node_badge_mask, []⟩ := by
      rw [irq_server_node_new, if_neg (by tauto)]
    have hfree : freeBits ⟨s.provider_ntfn, s.node_badge_mask, []⟩ =
        s.node_badge_mask := by
      show s.node_badge_mask &&& (s.node_badge_mask ^^^ allocatedBits []) =
        s.node_badge_mask
      rw [show allocatedBits [] = 0 from rfl, Nat.xor_zero]
      refine Nat.eq_of_testBit_eq fun i => ?_
      rw [Nat.testBit_land, Bool.and_self]
    rcases hr : irq_server_node_register_irq
        ⟨s.provider_ntfn, s.node_badge_mask, []⟩ irq cb token with _ | ⟨b, node'⟩
    · rw [register_irq_eq_none_iff, hfree] at hr
      exact absurd hr hmask
    · obtain ⟨_, _, hent, hbm, hnot⟩ :=
        (register_irq_spec _ irq cb token).2 b node' hr
      refine ⟨b, node', ?_, by simpa using hent, hbm, hnot⟩
      rw [irq_server_register_irq, hscan]
      simp only [hdyn, if_true, hnew, hr]
  · intro hfull hfix
    have hscan : registerScan irq cb token s.nodes = none :=
      registerScan_eq_none irq cb token s.nodes hfull
    rw [irq_server_register_irq, hscan, hfix]
    rfl

theorem irq_server_register_irq_policy_witness :
    (∃ b n',
      irq_server_node_register_irq ⟨9, 3, []⟩ 5 1 2 = some (b, n') ∧
      irq_server_register_irq
        ⟨1, true, 3, 9, [(0, ⟨9, 1, [(0, ⟨4, 4, 4⟩)]⟩), (1, ⟨9, 3, []⟩)], [0, 1], 2⟩
        5 1 2 =
        some ((1, b),
          { label := 1, dynamic := true, node_badge_mask := 3,
            provider_ntfn := 9,
            nodes := [(0, ⟨9, 1, [(0, ⟨4, 4, 4⟩)]⟩)] ++ (1, n') :: [],
            workers := [0, 1], next_id := 2 })) ∧
    (∃ b node',
      irq_server_register_irq
        ⟨1, true, 3, 9, [(0, ⟨9, 1, [(0, ⟨4, 4, 4⟩)]⟩)], [0], 1⟩ 5 1 2 =
        some ((1, b),
          { label := 1, dynamic := true, node_badge_mask := 3,
            provider_ntfn := 9,
            nodes := [(0, ⟨9, 1, [(0, ⟨4, 4, 4⟩)]⟩)] ++ [(1, node')],
            workers := [0] ++ [1], next_id := 1 + 1 }) ∧
      node'.entries = [(b, ⟨5, 1, 2⟩)] ∧ node'.badge_mask = 3 ∧
      node'.notification = 9) ∧
    irq_server_register_irq
      ⟨1, false, 3, 9, [(0, ⟨9, 1, [(0, ⟨4, 4, 4⟩)]⟩)], [0], 1⟩ 5 1 2 = none := by
  refine ⟨?_, ?_, ?_⟩
  · obtain ⟨b, n', hr, hres⟩ :=
      (irq_server_register_irq_policy
        ⟨1, true, 3, 9, [(0, ⟨9, 1, [(0, ⟨4, 4, 4⟩)]⟩), (1, ⟨9, 3, []⟩)], [0, 1], 2⟩
        5 1 2).1
        [(0, ⟨9, 1, [(0, ⟨4, 4, 4⟩)]⟩)] 1 ⟨9, 3, []⟩ [] rfl
        (by decide) (by decide)
    exact ⟨b, n', hr, hres⟩
  · obtain ⟨b, node', hres, h1, h2, h3⟩ :=
      (irq_server_register_irq_policy
        ⟨1, true, 3, 9, [(0, ⟨9, 1, [(0, ⟨4, 4, 4⟩)]⟩)], [0], 1⟩ 5 1 2).2.1
        (by decide) rfl (by decide) (by decide)
    exact ⟨b, node', hres, h1, h2, h3⟩
  · exact (irq_server_register_irq_policy
      ⟨1, false, 3, 9, [(0, ⟨9, 1, [(0, ⟨4, 4, 4⟩)]⟩)], [0], 1⟩ 5 1 2).2.2
      (by decide) rfl

/-! ## Worker lifecycle: one worker per node, created and torn down together -/

/-- One step of the server-level interface: a registration attempt (which
in dynamic mode may create a (node, worker) pair; a failed attempt leaves
the server unchanged) or the teardown of one node, which terminates the
node's worker with it. -/
inductive server_op where
  | reg (irq cb token : Nat)
  | teardown (id : Nat)
deriving DecidableEq, Repr

def server_step (s : irq_server) : server_op → irq_server
  | .reg irq cb token =>
    match irq_server_register_irq s irq cb token with
    | none => s
    | some (_, s') => s'
  | .teardown id =>
    { s with
      nodes := s.nodes.filter (fun p => p.1 != id),
      workers := s.workers.filter (fun w => w != id) }

def server_run (s : irq_server) (ops : List server_op) : irq_server :=
  ops.foldl server_step s

/-- The 1:1 node/worker pairing: the workers are exactly the node
identities, in creation order. -/
def WorkersMatchNodes (s : irq_server) : Prop :=
  s.workers = s.nodes.map Prod.fst

instance (s : irq_server) : Decidable (WorkersMatchNodes s) := by
  unfold WorkersMatchNodes; infer_instance

theorem map_fst_filter_ne (l : List (Nat × irq_server_node)) (id : Nat) :
    (l.filter (fun p => p.1 != id)).map Prod.fst =
      (l.map Prod.fst).filter (fun w => w != id) := by
  induction l with
  | nil => rfl
  | cons p t ih =>
    by_cases h : p.1 = id <;>
      simp [List.filter_cons, h, ih]

theorem WorkersMatchNodes.step_paired {s : irq_server} (h : WorkersMatchNodes s)
    (op : server_op) : WorkersMatchNodes (server_step s op) := by
  cases op with
  | reg irq cb token =>
    rcases hr : irq_server_register_irq s irq cb token with _ | ⟨handle, s'⟩
    · simpa only [server_step, hr] using h
    · simp only [server_step, hr]
      rcases hscan : registerScan irq cb token s.nodes with _ | ⟨h0, nodes'⟩
      · by_cases hdyn : s.dynamic = true
        · rcases hnew : irq_server_node_new s.provider_ntfn s.node_badge_mask
              with _ | node
          · have heq : irq_server_register_irq s irq cb token = none := by
              rw [irq_server_register_irq, hscan]
              simp only [hdyn, if_true, hnew]
            exact Option.noConfusion (heq.symm.trans hr)
          · rcases hreg : irq_server_node_register_irq node irq cb token
                with _ | ⟨b, node'⟩
            · have heq : irq_server_register_irq s irq cb token = none := by
                rw [irq_server_register_irq, hscan]
                simp only [hdyn, if_true, hnew, hreg]
              exact Option.noConfusion (heq.symm.trans hr)
            · have heq : irq_server_register_irq s irq cb token =
                  some ((s.next_id, b),
                    { s with
                      nodes := s.nodes ++ [(s.next_id, node')],
                      workers := s.workers ++ [s.next_id],
                      next_id := s.next_id + 1 }) := by
                rw [irq_server_register_irq, hscan]
                simp only [hdyn, if_true, hnew, hreg]
              have hcomb := heq.symm.trans hr
              injection hcomb with h1
              injection h1 with h1a h1b
              subst h1b
              rw [WorkersMatchNodes] at h
              show s.workers ++ [s.next_id] = _
              simp only [List.map_append, List.map_cons, List.map_nil]
              rw [h]
        · have hfix : s.dynamic = false := by
            cases hd : s.dynamic
            · rfl
            · exact absurd hd hdyn
          have heq : irq_server_register_irq s irq cb token = none := by
            rw [irq_server_register_irq, hscan]
            simp only [hfix, Bool.false_eq_true, if_false]
          exact Option.noConfusion (heq.symm.trans hr)
      · have heq : irq_server_register_irq s irq cb token =
            some (h0, { s with nodes := nodes' }) := by
          rw [irq_server_register_irq, hscan]
        have hcomb := heq.symm.trans hr
        injection hcomb with h1
        injection h1 with h1a h1b
        subst h1b
        show s.workers = nodes'.map Prod.fst
        rw [registerScan_ids irq cb token s.nodes h0 nodes' hscan]
        exact h
  | teardown id =>
    unfold WorkersMatchNodes at *
    simp only [server_step]
    rw [map_fst_filter_ne, h]

theorem WorkersMatchNodes.run_paired {s : irq_server} (h : WorkersMatchNodes s)
    (ops : List server_op) : WorkersMatchNodes (server_run s ops) := by
  induction ops generalizing s with
  | nil => exact h
  | cons op t ih =>
    simp only [server_run, List.foldl_cons]
    exact ih (h.step_paired op)

/-- C8: along every sequence of server operations, every dispatch node has
exactly one worker: the workers are in bijection with the nodes (created
together by a dynamic-mode registration, removed together by teardown), so
no worker outlives its node and no node lacks a worker. -/
theorem server_one_worker_per_node (s : irq_server) (ops : List server_op)
    (h : WorkersMatchNodes s) :
    WorkersMatchNodes (server_run s ops) ∧
    (server_run s ops).workers.length = (server_run s ops).nodes.length ∧
    (∀ id, id ∈ (server_run s ops).workers ↔
      ∃ n, (id, n) ∈ (server_run s ops).nodes) := by
  have hinv : WorkersMatchNodes (server_run s ops) := h.run_paired ops
  refine ⟨hinv, ?_, ?_⟩
  · rw [hinv, List.length_map]
  · intro id
    rw [hinv, List.mem_map]
    constructor
    · rintro ⟨p, hp, rfl⟩
      exact ⟨p.2, hp⟩
    · rintro ⟨n, hn⟩
      exact ⟨(id, n), hn, rfl⟩

theorem server_one_worker_per_node_witness :
    WorkersMatchNodes (server_run ⟨1, true, 3, 9, [], [], 0⟩
      [server_op.reg 5 1 2, server_op.reg 6 1 2, server_op.reg 7 1 2,
       server_op.teardown 0]) ∧
    (server_run ⟨1, true, 3, 9, [], [], 0⟩
      [server_op.reg 5 1 2, server_op.reg 6 1 2, server_op.reg 7 1 2,
       server_op.teardown 0]).workers.length =
    (server_run ⟨1, true, 3, 9, [], [], 0⟩
      [server_op.reg 5 1 2, server_op.reg 6 1 2, server_op.reg 7 1 2,
       server_op.teardown 0]).nodes.length :=
  ⟨(server_one_worker_per_node ⟨1, true, 3, 9, [], [], 0⟩
      [server_op.reg 5 1 2, server_op.reg 6 1 2, server_op.reg 7 1 2,
       server_op.teardown 0] (by decide)).1,
   (server_one_worker_per_node ⟨1, true, 3, 9, [], [], 0⟩
      [server_op.reg 5 1 2, server_op.reg 6 1 2, server_op.reg 7 1 2,
       server_op.teardown 0] (by decide)).2.1⟩

/-! ## Waiting for and dispatching IRQ IPC messages

The header contract of `irq_server_wait_for_irq` reads: "Waits on the IRQ
delivery endpoint for the next IRQ.  If an IPC is received, but the label
does not match that which was assigned to the IRQ server, the message info
and badge are returned to the caller, much like seL4_Wait(...).  If the
label does match, irq_server_handle_irq_ipc(...) will be called before
returning."  The declared signature takes only the server and a badge
out-parameter: there is no deadline or timeout argument.  The blocking
seL4_Wait receive is modelled by a queue of pending messages: a wait on an
empty queue never returns (`none`); otherwise the head message is consumed.
-/

/-- A message as received on the delivery endpoint: the IPC label, the
sender badge, and the message registers identifying the forwarding node. -/
structure recv_msg where
  label : Nat
  badge : Nat
  node_id : Nat
deriving DecidableEq, Repr

/-- Modelled from the spec: the body of `irq_server_handle_irq_ipc` is not
in the sources.  "The server will read the appropriate message registers to
retrieve the information that it needs" and "will decode the provided
information and redirect control to the appropriate IRQ handler": the
entries decoded from the badge on the node identified by the message are
dispatched; an unknown node or a badge matching no live entry dispatches
nothing. -/
def irq_server_handle_irq_ipc (s : irq_server) (m : recv_msg) :
    List irq_data :=
  match s.nodes.find? (fun p => p.1 == m.node_id) with
  | some p => decode p.2 m.badge
  | none => []

/-- Outcome of one return from the wait call: whether the message was
handled as an IRQ dispatch, the raw message info, the sender badge
(written to `badge_ret`), and the entries dispatched before returning. -/
structure wait_result where
  handled : Bool
  msg : recv_msg
  badge : Nat
  dispatched : List irq_data
deriving DecidableEq, Repr

/-- Modelled from the spec and the header contract: the body of
`irq_server_wait_for_irq` is not in the sources.  The call blocks on the
delivery endpoint (no return on an empty queue; the declaration has no
deadline parameter); on an arrival with a foreign label the raw message
info and badge are returned unchanged with no dispatch; on a matching
label `irq_server_handle_irq_ipc` is called before returning. -/
def irq_server_wait_for_irq (s : irq_server) (pending : List recv_msg) :
    Option (wait_result × List recv_msg) :=
  match pending with
  | [] => none
  | m :: rest =>
    if m.label = s.label then
      some (⟨true, m, m.badge, irq_server_handle_irq_ipc s m⟩, rest)
    else
      some (⟨false, m, m.badge, []⟩, rest)

/-- C5: a received message whose label differs from the server's label is
returned raw — message info and sender badge unchanged, nothing dispatched
— while a matching label triggers `irq_server_handle_irq_ipc` (decode and
dispatch) before returning. -/
theorem wait_for_irq_foreign_label (s : irq_server) (m : recv_msg)
    (rest : List recv_msg) :
    (m.label ≠ s.label →
      irq_server_wait_for_irq s (m :: rest) =
        some (⟨false, m, m.badge, []⟩, rest)) ∧
    (m.label = s.label →
      irq_server_wait_for_irq s (m :: rest) =
        some (⟨true, m, m.badge, irq_server_handle_irq_ipc s m⟩, rest)) := by
  constructor
  · intro hne
    rw [irq_server_wait_for_irq, if_neg hne]
  · intro heq
    rw [irq_server_wait_for_irq, if_pos heq]

theorem wait_for_irq_foreign_label_witness :
    irq_server_wait_for_irq ⟨1, true, 3, 9, [], [], 0⟩ [⟨2, 5, 0⟩] =
      some (⟨false, ⟨2, 5, 0⟩, 5, []⟩, []) ∧
    irq_server_wait_for_irq ⟨1, true, 3, 9, [], [], 0⟩ [⟨1, 5, 0⟩] =
      some (⟨true, ⟨1, 5, 0⟩, 5,
        irq_server_handle_irq_ipc ⟨1, true, 3, 9, [], [], 0⟩ ⟨1, 5, 0⟩⟩, []) :=
  ⟨(wait_for_irq_foreign_label ⟨1, true, 3, 9, [], [], 0⟩ ⟨2, 5, 0⟩ []).1
      (by decide),
   (wait_for_irq_foreign_label ⟨1, true, 3, 9, [], [], 0⟩ ⟨1, 5, 0⟩ []).2 rfl⟩

/-- C6 counterexample: the claim asserts that the wait operation accepts a
deadline and that `wait(0)` with no pending events returns immediately with
`handled = false` and an empty raw message.  The code's wait
(`irq_server_wait_for_irq`, whose declared signature has no deadline
parameter) performs a blocking seL4_Wait: at the concrete input of a server
with no pending events it does not return at all — there is no
`handled = false` / empty-message return. -/
theorem wait_for_irq_no_return_without_event :
    irq_server_wait_for_irq ⟨1, true, 3, 9, [], [], 0⟩ [] = none := rfl

/-- C6 amended: the wait operation accepts no deadline/timeout parameter;
with no pending event it blocks (never returns) rather than returning
`handled = false` with an empty message, and every actual return carries
the populated received message at its head — timeouts are not part of the
interface. -/
theorem wait_for_irq_blocks_and_returns_messages (s : irq_server)
    (pending : List recv_msg) :
    (pending = [] → irq_server_wait_for_irq s pending = none) ∧
    (∀ r rest, irq_server_wait_for_irq s pending = some (r, rest) →
      pending = r.msg :: rest) := by
  constructor
  · rintro rfl
    rfl
  · intro r rest hr
    rcases pending with _ | ⟨m, t⟩
    · cases hr
    · rw [irq_server_wait_for_irq] at hr
      by_cases hl : m.label = s.label
      · rw [if_pos hl] at hr
        injection hr with h1
        injection h1 with h1a h1b
        subst h1b
        rw [← h1a]
      · rw [if_neg hl] at hr
        injection hr with h1
        injection h1 with h1a h1b
        subst h1b
        rw [← h1a]

theorem wait_for_irq_blocks_and_returns_messages_witness :
    irq_server_wait_for_irq ⟨1, true, 3, 9, [], [], 0⟩ [] = none ∧
    [(⟨2, 5, 0⟩ : recv_msg)] =
      (wait_result.mk false ⟨2, 5, 0⟩ 5 []).msg :: [] :=
  ⟨(wait_for_irq_blocks_and_returns_messages ⟨1, true, 3, 9, [], [], 0⟩ []).1
      rfl,
   (wait_for_irq_blocks_and_returns_messages ⟨1, true, 3, 9, [], [], 0⟩
      [⟨2, 5, 0⟩]).2 ⟨false, ⟨2, 5, 0⟩, 5, []⟩ [] (by decide)⟩

/-! ## Physical memory region enumeration (pmem code of common.c) -/

inductive pmem_type where
  | PMEM_TYPE_RAM
  | PMEM_TYPE_DEVICE
deriving DecidableEq, Repr

structure pmem_region where
  type : pmem_type
  base_addr : Nat
  length : Nat
deriving DecidableEq, Repr

/-- `sel4platsupport_get_num_pmem_regions` returns 2 unconditionally (the
`simple` parameter is unused). -/
def sel4platsupport_get_num_pmem_regions : Int := 2

/-- Body of the write loop of `sel4platsupport_get_pmem_region_list` at
index `i`: index 0 receives the 1 MiB device region at 0x40000000 and
index 1 the 4 MiB device region at 0x40400000. -/
def pmem_write (rl : Nat → pmem_region) (i : Nat) : Nat → pmem_region :=
  let rl0 := if i = 0 then
      (fun j => if j = i then
        (⟨.PMEM_TYPE_DEVICE, 0x40000000, 1024 * 1024⟩ : pmem_region)
      else rl j)
    else rl
  if i = 1 then
    (fun j => if j = i then
      (⟨.PMEM_TYPE_DEVICE, 0x40400000, 4 * 1024 * 1024⟩ : pmem_region)
    else rl0 j)
  else rl0

/-- `sel4platsupport_get_pmem_region_list`: clamps `max_length` to 2, runs
the write loop for `i = 0 .. k-1` over the caller's region list (modelled
as a map from index to region) and returns the final loop index `i = k`
with the updated list. -/
def sel4platsupport_get_pmem_region_list (max_length : Nat)
    (region_list : Nat → pmem_region) : Nat × (Nat → pmem_region) :=
  let k := if max_length > 2 then 2 else max_length
  (k, (List.range k).foldl pmem_write region_list)

/-- C9: `sel4platsupport_get_num_pmem_regions` returns 2, and
`sel4platsupport_get_pmem_region_list` writes exactly `min max_length 2`
entries — entry 0 a device region at 0x40000000 of 1 MiB, entry 1 a device
region at 0x40400000 of 4 MiB — leaves all later entries untouched, and
returns `min max_length 2`; with `max_length = 0` nothing is written and 0
is returned. -/
theorem pmem_region_list_spec (max_length : Nat) (rl : Nat → pmem_region) :
    sel4platsupport_get_num_pmem_regions = 2 ∧
    (sel4platsupport_get_pmem_region_list max_length rl).1 =
      min max_length 2 ∧
    (∀ j, j < min max_length 2 →
      (sel4platsupport_get_pmem_region_list max_length rl).2 j =
        if j = 0 then ⟨.PMEM_TYPE_DEVICE, 0x40000000, 1024 * 1024⟩
        else ⟨.PMEM_TYPE_DEVICE, 0x40400000, 4 * 1024 * 1024⟩) ∧
    (∀ j, min max_length 2 ≤ j →
      (sel4platsupport_get_pmem_region_list max_length rl).2 j = rl j) ∧
    sel4platsupport_get_pmem_region_list 0 rl = (0, rl) := by
  have hk : (if max_length > 2 then 2 else max_length) = min max_length 2 := by
    split <;> omega
  refine ⟨rfl, ?_, ?_, ?_, rfl⟩
  · simp only [sel4platsupport_get_pmem_region_list, hk]
  · intro j hj
    simp only [sel4platsupport_get_pmem_region_list, hk]
    have h2 : min max_length 2 ≤ 2 := by omega
    interval_cases hm : (min max_length 2)
    · omega
    · have hj0 : j = 0 := by omega
      subst hj0
      rw [show List.range 1 = [0] from rfl, List.foldl_cons, List.foldl_nil]
      simp [pmem_write]
    · rw [show List.range 2 = [0, 1] from rfl, List.foldl_cons,
        List.foldl_cons, List.foldl_nil]
      rcases (by omega : j = 0 ∨ j = 1) with rfl | rfl
      · simp [pmem_write]
      · simp [pmem_write]
  · intro j hj
    simp only [sel4platsupport_get_pmem_region_list, hk]
    have h2 : min max_length 2 ≤ 2 := by omega
    interval_cases hm : (min max_length 2)
    · rfl
    · have hj0 : j ≠ 0 := by omega
      rw [show List.range 1 = [0] from rfl, List.foldl_cons, List.foldl_nil]
      simp [pmem_write, hj0]
    · have hj0 : j ≠ 0 := by omega
      have hj1 : j ≠ 1 := by omega
      rw [show List.range 2 = [0, 1] from rfl, List.foldl_cons,
        List.foldl_cons, List.foldl_nil]
      simp [pmem_write, hj0, hj1]

theorem pmem_region_list_spec_witness :
    (sel4platsupport_get_pmem_region_list 5
      (fun _ => ⟨.PMEM_TYPE_RAM, 0, 0⟩)).1 = min 5 2 ∧
    (sel4platsupport_get_pmem_region_list 5
      (fun _ => ⟨.PMEM_TYPE_RAM, 0, 0⟩)).2 0 =
      ⟨.PMEM_TYPE_DEVICE, 0x40000000, 1024 * 1024⟩ ∧
    (sel4platsupport_get_pmem_region_list 5
      (fun _ => ⟨.PMEM_TYPE_RAM, 0, 0⟩)).2 7 = ⟨.PMEM_TYPE_RAM, 0, 0⟩ :=
  ⟨(pmem_region_list_spec 5 (fun _ => ⟨.PMEM_TYPE_RAM, 0, 0⟩)).2.1,
   by
    have := (pmem_region_list_spec 5
      (fun _ => ⟨.PMEM_TYPE_RAM, 0, 0⟩)).2.2.1 0 (by decide)
    simpa using this,
   (pmem_region_list_spec 5
      (fun _ => ⟨.PMEM_TYPE_RAM, 0, 0⟩)).2.2.2.1 7 (by decide)⟩

/-! ## Serial setup state machine (serial code of common.c)

The context `ctx` is the static state of common.c.  External collaborators
(`__plat_serial_init`, the boot info, the architecture-specific io-port
setup) are not part of the sources; their observable results enter as
oracle parameters.  `USE_DEBUG_HARDWARE` is a build configuration choice
and enters as a boolean parameter.
-/

inductive serial_setup_status where
  | NOT_INITIALIZED
  | START_REGULAR_SETUP
  | START_FAILSAFE_SETUP
  | SETUP_COMPLETE
deriving DecidableEq, Repr

/-- The static context of common.c: the setup status and, for
debug-hardware builds, the io_ops table (modelled by whether the map
function was installed), the device frame capability, the vka and vspace
pointers (opaque optional handles) and the failsafe simple/vka backing
stores (opaque words). -/
structure ctx_t where
  setup_status : serial_setup_status
  io_map_fn_set : Bool
  device_cap : Nat
  vka : Option Nat
  vspace : Option Nat
  simple_mem : Nat
  vka_mem : Nat
deriving DecidableEq, Repr

/-- `platsupport_serial_setup_io_ops`: returns 0 at once when setup is
complete; otherwise runs `__plat_serial_init` (external to the sources;
its result is the oracle `plat_serial_init_err`), marks setup complete on
success, and returns the error code either way. -/
def platsupport_serial_setup_io_ops (plat_serial_init_err : Int)
    (c : ctx_t) : Int × ctx_t :=
  if c.setup_status = .SETUP_COMPLETE then (0, c)
  else if plat_serial_init_err = 0 then
    (0, { c with setup_status := .SETUP_COMPLETE })
  else (plat_serial_init_err, c)

/-- `__setup_io_ops` (debug-hardware builds): installs `__map_device_page`
as the io map function and defers to `platsupport_serial_setup_io_ops`. -/
def __setup_io_ops (plat_serial_init_err : Int) (c : ctx_t) : Int × ctx_t :=
  platsupport_serial_setup_io_ops plat_serial_init_err
    { c with io_map_fn_set := true }

/-- `platsupport_serial_setup_bootinfo_failsafe`: returns 0 at once when
setup is complete; otherwise, on debug-hardware builds, enters failsafe
setup, initialises the backing simple/vka from the boot info (external;
the oracle `bootinfo`), points the context vka at the backing store and
runs `__setup_io_ops`; on other builds it just marks setup complete. -/
def platsupport_serial_setup_bootinfo_failsafe (use_debug_hardware : Bool)
    (plat_serial_init_err : Int) (bootinfo : Nat) (c : ctx_t) :
    Int × ctx_t :=
  if c.setup_status = .SETUP_COMPLETE then (0, c)
  else if use_debug_hardware then
    __setup_io_ops plat_serial_init_err
      { c with
        setup_status := .START_FAILSAFE_SETUP,
        simple_mem := bootinfo,
        vka_mem := bootinfo,
        vka := some bootinfo }
  else
    (0, { c with setup_status := .SETUP_COMPLETE })

/-- `platsupport_serial_setup_simple`: returns 0 at once when setup is
complete; returns -1 on a partially initialised serial; otherwise, on
debug-hardware builds, starts regular setup, stores the vspace and vka and
runs `__setup_io_ops`; on other builds it just marks setup complete. -/
def platsupport_serial_setup_simple (use_debug_hardware : Bool)
    (plat_serial_init_err : Int) (vspace vka : Option Nat) (c : ctx_t) :
    Int × ctx_t :=
  if c.setup_status = .SETUP_COMPLETE then (0, c)
  else if c.setup_status ≠ .NOT_INITIALIZED then (-1, c)
  else if use_debug_hardware then
    __setup_io_ops plat_serial_init_err
      { c with
        setup_status := .START_REGULAR_SETUP,
        vspace := vspace,
        vka := vka }
  else
    (0, { c with setup_status := .SETUP_COMPLETE })

/-- C10: once the context has reached SETUP_COMPLETE, each of the three
setup entry points returns 0 immediately and leaves the whole context
unchanged, for every build configuration and every oracle outcome. -/
theorem serial_setup_idempotent_after_complete (c : ctx_t) (e : Int)
    (u : Bool) (b : Nat) (vs vk : Option Nat)
    (h : c.setup_status = .SETUP_COMPLETE) :
    platsupport_serial_setup_io_ops e c = (0, c) ∧
    platsupport_serial_setup_bootinfo_failsafe u e b c = (0, c) ∧
    platsupport_serial_setup_simple u e vs vk c = (0, c) := by
  refine ⟨?_, ?_, ?_⟩
  · rw [platsupport_serial_setup_io_ops, if_pos h]
  · rw [platsupport_serial_setup_bootinfo_failsafe, if_pos h]
  · rw [platsupport_serial_setup_simple, if_pos h]

theorem serial_setup_idempotent_after_complete_witness :
    platsupport_serial_setup_io_ops 3
      ⟨.SETUP_COMPLETE, false, 0, none, none, 0, 0⟩ =
      (0, ⟨.SETUP_COMPLETE, false, 0, none, none, 0, 0⟩) ∧
    platsupport_serial_setup_bootinfo_failsafe true 3 5
      ⟨.SETUP_COMPLETE, false, 0, none, none, 0, 0⟩ =
      (0, ⟨.SETUP_COMPLETE, false, 0, none, none, 0, 0⟩) ∧
    platsupport_serial_setup_simple true 3 none none
      ⟨.SETUP_COMPLETE, false, 0, none, none, 0, 0⟩ =
      (0, ⟨.SETUP_COMPLETE, false, 0, none, none, 0, 0⟩) :=
  serial_setup_idempotent_after_complete
    ⟨.SETUP_COMPLETE, false, 0, none, none, 0, 0⟩ 3 true 5 none none rfl
